import Mathlib

/-!
Verification development for BusTub's copy-on-write trie (`src/primer/trie.cpp`)
and LRU-K page replacer (`src/buffer/lru_k_replacer.cpp`).

The trie is embedded against an explicit node heap: a `Store` is a list of
nodes, a heap address is the node's index, and allocation appends.  This makes
the `std::shared_ptr` structure sharing of the C++ code visible, so that
immutability of old snapshots is a real theorem (old addresses keep their
contents) rather than a triviality of a purely functional translation.
-/

/-- Modelled from the spec: one trie node as declared in the missing header
`primer/trie.h`.  `children_` maps one key character to the heap address of a
child node (the `std::map<char, std::shared_ptr<const TrieNode>>`); `value_` is
`some (ty, v)` when the node is a `TrieNodeWithValue<T>` holding payload `v`
whose runtime type has tag `ty`, and `none` for a plain `TrieNode`.  A
`dynamic_cast<const TrieNodeWithValue<T>*>` succeeds exactly when the stored
tag equals the requested tag. -/
structure TrieNode where
  children_ : List (Char × Nat)
  value_ : Option (Nat × Nat)
deriving DecidableEq

/-- The node heap: address `a` denotes `s.getD a ⟨[], none⟩`; allocation appends
and nothing is ever written in place, mirroring immutable shared nodes. -/
abbrev Store := List TrieNode

/-- Dereference a heap address (a dangling address yields an empty node; the
well-formedness predicate `ClosedStore` rules that out on reachable data). -/
def readNode (s : Store) (a : Nat) : TrieNode := s.getD a ⟨[], none⟩

/-- Allocate a fresh node, returning the extended heap and the new address. -/
def alloc (s : Store) (n : TrieNode) : Store × Nat := (s ++ [n], s.length)

/-- Lookup in a child map, as `children_.find(ch)` on the `std::map`. -/
def mapFind : List (Char × Nat) → Char → Option Nat
  | [], _ => none
  | (c, a) :: rest, c0 => if c0 = c then some a else mapFind rest c0

/-- Insert-or-assign in a child map, as `cloned_node->children_[key] = cur`. -/
def mapInsert : List (Char × Nat) → Char → Nat → List (Char × Nat)
  | [], c, a => [(c, a)]
  | (c1, a1) :: rest, c, a =>
    if c = c1 then (c, a) :: rest else (c1, a1) :: mapInsert rest c a

/-- A `Trie` handle: the heap it lives in together with its (nullable) root
reference `root_`, as in `primer/trie.h`. -/
structure Trie where
  store_ : Store
  root_ : Option Nat
deriving DecidableEq

/-- The walk of `Trie::Get` (trie.cpp lines 36-47): consume one character per
step following `children_`; a null current node or a missing child ends the
walk with "not found".  Returns the address of the terminal node. -/
def walkGet (s : Store) : Option Nat → List Char → Option Nat
  | cur, [] => cur
  | none, _ :: _ => none
  | some a, c :: rest =>
    match mapFind (readNode s a).children_ c with
    | none => none
    | some child => walkGet s (some child) rest

/-- The `dynamic_cast<const TrieNodeWithValue<T>*>` step of `Trie::Get`
(trie.cpp lines 48-51): the cast succeeds exactly when the node carries a
value whose runtime type tag equals the requested tag. -/
def valueAs (n : TrieNode) (ty : Nat) : Option Nat :=
  match n.value_ with
  | some (ty0, v) => if ty0 = ty then some v else none
  | none => none

/-- Trie::Get (trie.cpp lines 28-52): walk to the terminal node, then attempt
the `dynamic_cast` to `TrieNodeWithValue<T>`; a miss anywhere returns `none`
(`nullptr`), never an error. -/
def Trie.Get (t : Trie) (key : List Char) (ty : Nat) : Option Nat :=
  match walkGet t.store_ t.root_ key with
  | none => none
  | some a => valueAs (readNode t.store_ a) ty

/-- One descent step of the `Trie::Put` walk: from a (possibly null) current
node, the child reached by consuming `c` (null once the walk fell off). -/
def stepChild (s : Store) (cur : Option Nat) (c : Char) : Option Nat :=
  match cur with
  | none => none
  | some a => mapFind (readNode s a).children_ c

/-- The walk of `Trie::Put` (trie.cpp lines 61-74): for every character push
the pair `(ch, currentNode)` onto `parents`, then descend (staying null once
the walk fell off the existing structure).  Returns the parents list in key
order and the terminal node reference. -/
def walkPut (s : Store) : Option Nat → List Char → List (Char × Option Nat) × Option Nat
  | cur, [] => ([], cur)
  | cur, c :: rest =>
    ((c, cur) :: (walkPut s (stepChild s cur c) rest).1,
      (walkPut s (stepChild s cur c) rest).2)

/-- Clone of a recorded parent in the rebuild loop of `Trie::Put` (trie.cpp
lines 83-87): a null parent becomes an empty `TrieNode`, otherwise `Clone`
(from the missing header, modelled from the spec) copies the node preserving
children and value. -/
def cloneBase (s : Store) (p : Option Nat) : TrieNode :=
  match p with
  | none => ⟨[], none⟩
  | some a => readNode s a

/-- The bottom-up rebuild loop of `Trie::Put` (trie.cpp lines 80-90): parents
are consumed from the deepest back to the shallowest; each one is cloned and
its child slot for that character is pointed at the subtree built so far. -/
def rebuild (s : Store) : List (Char × Option Nat) → Nat → Store × Nat
  | [], cur => (s, cur)
  | (c, p) :: ps, cur =>
    let pr := rebuild s ps cur
    alloc pr.1 ⟨mapInsert (cloneBase pr.1 p).children_ c pr.2, (cloneBase pr.1 p).value_⟩

/-- Tail of `Trie::Put`: allocate the terminal value node `tn`, rebuild the
recorded ancestors bottom-up over it, and allocate the final `Clone` of the
rebuilt root (trie.cpp lines 75-92). -/
def putFinish (s : Store) (ps : List (Char × Option Nat)) (tn : TrieNode) : Store × Nat :=
  let pr := rebuild (s ++ [tn]) ps s.length
  alloc pr.1 (readNode pr.1 pr.2)

/-- Trie::Put (trie.cpp lines 58-95): walk recording parents, build the
terminal value node (keeping the existing node's children when the key path
already existed), rebuild the ancestors bottom-up, and finally wrap a `Clone`
of the rebuilt root into the returned `Trie`.  The original heap prefix is
never modified. -/
def Trie.Put (t : Trie) (key : List Char) (ty v : Nat) : Trie :=
  let w := walkPut t.store_ t.root_ key
  let tn : TrieNode :=
    match w.2 with
    | none => ⟨[], some (ty, v)⟩
    | some a => ⟨(readNode t.store_ a).children_, some (ty, v)⟩
  let fin := putFinish t.store_ w.1 tn
  ⟨fin.1, some fin.2⟩

/-- Trie::Remove (trie.cpp lines 101-106): the body unconditionally throws
`NotImplementedException("Trie::Remove is not implemented.")`. -/
def Trie.Remove (_t : Trie) (_key : List Char) : Except String Trie :=
  Except.error "Trie::Remove is not implemented."

/-- Every child address stored in the heap is a valid address. -/
def ClosedStore (s : Store) : Prop :=
  ∀ n ∈ s, ∀ e ∈ n.children_, e.2 < s.length

/-- A (nullable) node reference points inside the heap. -/
def ValidRef (s : Store) (r : Option Nat) : Prop :=
  ∀ a, r = some a → a < s.length

/-- Well-formed trie handle: closed heap and valid root reference. -/
def Trie.WF (t : Trie) : Prop := ClosedStore t.store_ ∧ ValidRef t.store_ t.root_

/-- Per-frame record of the replacer (`LRUKNode` of `buffer/lru_k_replacer.h`):
`history_` is the append-only list of access timestamps (`push_back` appends,
so `back()` is the most recent entry), plus the configured `k_`, the frame id
and the evictability flag. -/
structure LRUKNode where
  history_ : List Nat
  k_ : Nat
  fid_ : Nat
  is_evictable_ : Bool
deriving DecidableEq

/-- Replacer state (`LRUKReplacer`): the frame-id-keyed node store (the
`std::unordered_map`, modelled as an association list in insertion order),
the capacity `replacer_size_`, the configured `k_`, and `current_timestamp_`.
Modelled from the spec: `NowNanos()` and the timestamp field live in the
missing header `buffer/lru_k_replacer.h`; per the spec the current logical
time is a monotonically increasing counter incremented on every
`RecordAccess` call, so `NowNanos()` reads `current_timestamp_` and
`RecordAccess` bumps it. -/
structure LRUKReplacer where
  node_store_ : List (Nat × LRUKNode)
  replacer_size_ : Nat
  k_ : Nat
  current_timestamp_ : Nat
deriving DecidableEq

/-- The constructor `LRUKReplacer(num_frames, k)` (lru_k_replacer.cpp line 28):
empty store, logical clock at zero. -/
def LRUKReplacer.init (num_frames k : Nat) : LRUKReplacer := ⟨[], num_frames, k, 0⟩

/-- node_store_.find(frame_id) on the association list. -/
def storeFind : List (Nat × LRUKNode) → Nat → Option LRUKNode
  | [], _ => none
  | (f, n) :: rest, fid => if fid = f then some n else storeFind rest fid

/-- node_store_.erase(frame_id): drop the (unique) entry with that key. -/
def storeErase : List (Nat × LRUKNode) → Nat → List (Nat × LRUKNode)
  | [], _ => []
  | (f, n) :: rest, fid => if f = fid then rest else (f, n) :: storeErase rest fid

/-- In-place update of the entry found for `fid` (mutation through the
iterator returned by `find`). -/
def storeSet (upd : LRUKNode → LRUKNode) : List (Nat × LRUKNode) → Nat → List (Nat × LRUKNode)
  | [], _ => []
  | (f, n) :: rest, fid =>
    if f = fid then (f, upd n) :: rest else (f, n) :: storeSet upd rest fid

/-- LRUKReplacer::RecordAccess (lru_k_replacer.cpp lines 104-114): if the frame
is tracked, append the current timestamp to its history; otherwise
`try_emplace` a new record.  Modelled from the spec: the `LRUKNode(k_, fid)`
constructor (missing header) creates the record not evictable with a
single-entry history holding the current timestamp, and the logical clock is
incremented by every call.  Note there is no bound check on `fid`. -/
def LRUKReplacer.RecordAccess (r : LRUKReplacer) (fid : Nat) : LRUKReplacer :=
  match storeFind r.node_store_ fid with
  | some _ =>
    { r with
      node_store_ :=
        storeSet (fun n => { n with history_ := n.history_ ++ [r.current_timestamp_] })
          r.node_store_ fid,
      current_timestamp_ := r.current_timestamp_ + 1 }
  | none =>
    { r with
      node_store_ := r.node_store_ ++ [(fid, ⟨[r.current_timestamp_], r.k_, fid, false⟩)],
      current_timestamp_ := r.current_timestamp_ + 1 }

/-- LRUKReplacer::SetEvictable (lru_k_replacer.cpp lines 133-140): set the flag
if the frame is tracked, silently do nothing otherwise.  No bound check. -/
def LRUKReplacer.SetEvictable (r : LRUKReplacer) (fid : Nat) (flag : Bool) : LRUKReplacer :=
  match storeFind r.node_store_ fid with
  | some _ =>
    { r with node_store_ := storeSet (fun n => { n with is_evictable_ := flag }) r.node_store_ fid }
  | none => r

/-- LRUKReplacer::Remove (lru_k_replacer.cpp lines 159-170): untracked frame is
a no-op; a tracked evictable frame's record is erased; a tracked non-evictable
frame makes it throw `bustub::Exception("Node is not evictable")`. -/
def LRUKReplacer.Remove (r : LRUKReplacer) (fid : Nat) : Except String LRUKReplacer :=
  match storeFind r.node_store_ fid with
  | none => .ok r
  | some n =>
    if n.is_evictable_ then .ok { r with node_store_ := storeErase r.node_store_ fid }
    else .error "Node is not evictable"

/-- LRUKReplacer::Size (lru_k_replacer.cpp lines 179-188): count of records
currently flagged evictable. -/
def LRUKReplacer.Size (r : LRUKReplacer) : Nat :=
  (r.node_store_.filter (fun e => e.2.is_evictable_)).length

/-- The candidate scan of LRUKReplacer::Evict (lru_k_replacer.cpp lines 58-80),
folding over the store in iteration order.  Accumulator is
`(oldest_time, oldest_time_id, biggest_k, biggest_k_id)` with
`oldest_time` initialised to `std::numeric_limits<unsigned long>::max()`.
For a frame with fewer than `k_` recorded accesses the code compares
`history_.back()` (its most recent timestamp) against `oldest_time`;
for a frame with at least `k_` accesses it compares
`NowNanos() - *std::prev(history_.end(), k_)` against `biggest_k`. -/
def evictScan (r : LRUKReplacer) : Nat × Option Nat × Nat × Option Nat :=
  r.node_store_.foldl
    (fun acc e =>
      let oldest_time := acc.1
      let oldest_id := acc.2.1
      let biggest_k := acc.2.2.1
      let biggest_id := acc.2.2.2
      let fid := e.1
      let node := e.2
      if node.history_.length < r.k_ then
        let last_time_entry := node.history_.getLastD 0
        if last_time_entry < oldest_time ∧ node.is_evictable_ = true then
          (last_time_entry, some fid, biggest_k, biggest_id)
        else acc
      else
        let time_entry_at_k := node.history_.getD (node.history_.length - r.k_) 0
        let dist := r.current_timestamp_ - time_entry_at_k
        if dist > biggest_k ∧ node.is_evictable_ = true then
          (oldest_time, oldest_id, dist, some fid)
        else acc)
    (2 ^ 64 - 1, none, 0, none)

/-- LRUKReplacer::Evict (lru_k_replacer.cpp lines 56-89): scan all tracked
frames, then prefer the `oldest_time_id` candidate (frames with fewer than `k`
accesses, i.e. +infinity backward k-distance), falling back to the
`biggest_k_id` candidate; the chosen frame is removed via `Remove`. -/
def LRUKReplacer.Evict (r : LRUKReplacer) : Except String (Option Nat × LRUKReplacer) :=
  let acc := evictScan r
  match acc.2.1 with
  | some i => (r.Remove i).map (fun r2 => (some i, r2))
  | none =>
    match acc.2.2.2 with
    | some i => (r.Remove i).map (fun r2 => (some i, r2))
    | none => .ok (none, r)

/-- Concrete replacer state used by the C7 witness: frame 1 tracked and
evictable. -/
def lruRemWitState : LRUKReplacer :=
  ((LRUKReplacer.init 7 2).RecordAccess 1).SetEvictable 1 true

/-- All timestamps recorded anywhere in the replacer's node store. -/
def allTimestamps (r : LRUKReplacer) : List Nat :=
  r.node_store_.flatMap (fun e => e.2.history_)

/-- Clock invariant: every recorded timestamp is below the current counter.
It holds at construction (no records) and, by `record_access_monotone_clock`,
is preserved by `RecordAccess`; the other operations only delete or reflag
records. -/
def TimestampsBounded (r : LRUKReplacer) : Prop :=
  ∀ t ∈ allTimestamps r, t < r.current_timestamp_

/-- The LRU-K scenario of the spec: k = 2, frame 1 accessed once, frame 2
twice, frame 3 never, frames 1 and 2 marked evictable. -/
def lruScenarioK2 : LRUKReplacer :=
  ((((LRUKReplacer.init 7 2).RecordAccess 1).RecordAccess 2).RecordAccess 2
    |>.SetEvictable 1 true).SetEvictable 2 true

/-- Counterexample state for the +infinity tie-break rule: k = 3, frame 1
accessed at logical times 0 and 2, frame 2 accessed at logical time 1,
both evictable, both with fewer than k accesses. -/
def lruFailK3 : LRUKReplacer :=
  ((((LRUKReplacer.init 7 3).RecordAccess 1).RecordAccess 2).RecordAccess 1
    |>.SetEvictable 1 true).SetEvictable 2 true

theorem readNode_append (s ext : Store) (a : Nat) (h : a < s.length) :
    readNode (s ++ ext) a = readNode s a :=
  List.getD_append s ext _ a h

theorem readNode_concat_self (s : Store) (n : TrieNode) :
    readNode (s ++ [n]) s.length = n := by
  unfold readNode
  induction s with
  | nil => rfl
  | cons x tl ih => simp only [List.cons_append, List.length_cons, List.getD_cons_succ]; exact ih

theorem readNode_mem {s : Store} {a : Nat} (h : a < s.length) : readNode s a ∈ s := by
  unfold readNode
  rw [List.getD_eq_getElem s _ h]
  exact List.getElem_mem h

theorem validRef_mono {s s' : Store} (hlen : s.length ≤ s'.length) {r : Option Nat}
    (h : ValidRef s r) : ValidRef s' r :=
  fun a ha => Nat.lt_of_lt_of_le (h a ha) hlen

theorem closedStore_concat {s : Store} {tn : TrieNode} (hc : ClosedStore s)
    (htn : ∀ e ∈ tn.children_, e.2 < s.length) : ClosedStore (s ++ [tn]) := by
  intro n hn e he
  have hlen : (s ++ [tn]).length = s.length + 1 := by simp
  rw [hlen]
  rcases List.mem_append.mp hn with h1 | h1
  · exact Nat.lt_succ_of_lt (hc n h1 e he)
  · have h2 := List.mem_singleton.mp h1
    subst h2
    exact Nat.lt_succ_of_lt (htn e he)

theorem mapFind_mem {m : List (Char × Nat)} {c : Char} {a : Nat}
    (h : mapFind m c = some a) : (c, a) ∈ m := by
  induction m with
  | nil => simp [mapFind] at h
  | cons e rest ih =>
    obtain ⟨c1, a1⟩ := e
    unfold mapFind at h
    by_cases hc : c = c1
    · rw [if_pos hc] at h
      have ha : a1 = a := Option.some.inj h
      subst ha; subst hc
      exact List.mem_cons_self _ _
    · rw [if_neg hc] at h
      exact List.mem_cons_of_mem _ (ih h)

theorem mapFind_mapInsert_self (m : List (Char × Nat)) (c : Char) (a : Nat) :
    mapFind (mapInsert m c a) c = some a := by
  induction m with
  | nil => simp [mapInsert, mapFind]
  | cons e rest ih =>
    obtain ⟨c1, a1⟩ := e
    unfold mapInsert
    by_cases hc : c = c1
    · rw [if_pos hc]
      unfold mapFind
      rw [if_pos rfl]
    · rw [if_neg hc]
      unfold mapFind
      rw [if_neg hc]
      exact ih

theorem mem_mapInsert {m : List (Char × Nat)} {c : Char} {a : Nat} {e : Char × Nat}
    (h : e ∈ mapInsert m c a) : e ∈ m ∨ e = (c, a) := by
  induction m with
  | nil =>
    right
    simpa [mapInsert] using h
  | cons e1 rest ih =>
    obtain ⟨c1, a1⟩ := e1
    unfold mapInsert at h
    by_cases hc : c = c1
    · rw [if_pos hc] at h
      rcases List.mem_cons.mp h with h1 | h1
      · right; exact h1
      · left; exact List.mem_cons_of_mem _ h1
    · rw [if_neg hc] at h
      rcases List.mem_cons.mp h with h1 | h1
      · left; rw [h1]; exact List.mem_cons_self _ _
      · rcases ih h1 with h2 | h2
        · left; exact List.mem_cons_of_mem _ h2
        · right; exact h2

theorem walkGet_append (s ext : Store) (key : List Char) :
    ∀ cur, ClosedStore s → ValidRef s cur →
      walkGet (s ++ ext) cur key = walkGet s cur key := by
  induction key with
  | nil => intro cur _ _; cases cur <;> rfl
  | cons c rest ih =>
    intro cur hc hv
    cases cur with
    | none => rfl
    | some a =>
      have ha : a < s.length := hv a rfl
      simp only [walkGet, readNode_append s ext a ha]
      cases hfind : mapFind (readNode s a).children_ c with
      | none => rfl
      | some child =>
        have hchild : child < s.length :=
          hc (readNode s a) (readNode_mem ha) (c, child) (mapFind_mem hfind)
        exact ih (some child) hc (fun b hb => by cases hb; exact hchild)

theorem walkGet_valid (s : Store) (key : List Char) :
    ∀ cur, ClosedStore s → ValidRef s cur → ValidRef s (walkGet s cur key) := by
  induction key with
  | nil => intro cur _ hv; cases cur <;> exact hv
  | cons c rest ih =>
    intro cur hc hv
    cases cur with
    | none => exact fun a ha => nomatch ha
    | some a =>
      have ha : a < s.length := hv a rfl
      simp only [walkGet]
      cases hfind : mapFind (readNode s a).children_ c with
      | none => exact fun b hb => nomatch hb
      | some child =>
        have hchild : child < s.length :=
          hc (readNode s a) (readNode_mem ha) (c, child) (mapFind_mem hfind)
        exact ih (some child) hc (fun b hb => by cases hb; exact hchild)

theorem Trie.Get_append (s ext : Store) (root : Option Nat) (key : List Char) (ty : Nat)
    (hc : ClosedStore s) (hv : ValidRef s root) :
    Trie.Get ⟨s ++ ext, root⟩ key ty = Trie.Get ⟨s, root⟩ key ty := by
  unfold Trie.Get
  simp only
  rw [walkGet_append s ext key root hc hv]
  cases hres : walkGet s root key with
  | none => rfl
  | some a =>
    show valueAs (readNode (s ++ ext) a) ty = valueAs (readNode s a) ty
    rw [readNode_append s ext a (walkGet_valid s key root hc hv a hres)]

theorem stepChild_valid (s : Store) (cur : Option Nat) (c : Char)
    (hc : ClosedStore s) (hv : ValidRef s cur) : ValidRef s (stepChild s cur c) := by
  cases cur with
  | none => exact fun a ha => nomatch ha
  | some a =>
    have ha : a < s.length := hv a rfl
    show ValidRef s (mapFind (readNode s a).children_ c)
    cases hfind : mapFind (readNode s a).children_ c with
    | none => exact fun b hb => nomatch hb
    | some child =>
      intro b hb
      cases hb
      exact hc (readNode s a) (readNode_mem ha) (c, child) (mapFind_mem hfind)

theorem walkPut_fst (s : Store) (key : List Char) :
    ∀ cur, ((walkPut s cur key).1).map Prod.fst = key := by
  induction key with
  | nil => intro cur; rfl
  | cons c rest ih =>
    intro cur
    simp only [walkPut, List.map_cons]
    rw [ih]

theorem walkPut_valid (s : Store) (key : List Char) :
    ∀ cur, ClosedStore s → ValidRef s cur →
      (∀ e ∈ (walkPut s cur key).1, ValidRef s e.2)
      ∧ ValidRef s (walkPut s cur key).2 := by
  induction key with
  | nil =>
    intro cur _ hv
    exact ⟨fun e he => absurd he (List.not_mem_nil e), hv⟩
  | cons c rest ih =>
    intro cur hc hv
    have hnext : ValidRef s (stepChild s cur c) := stepChild_valid s cur c hc hv
    have h := ih (stepChild s cur c) hc hnext
    refine ⟨?_, h.2⟩
    intro e he
    simp only [walkPut, List.mem_cons] at he
    rcases he with rfl | he
    · exact hv
    · exact h.1 e he

theorem rebuild_spec (s : Store) (cur : Nat) (hc : ClosedStore s) (hcur : cur < s.length) :
    ∀ ps : List (Char × Option Nat), (∀ e ∈ ps, ValidRef s e.2) →
      (∃ ext, (rebuild s ps cur).1 = s ++ ext)
      ∧ ClosedStore (rebuild s ps cur).1
      ∧ (rebuild s ps cur).2 < (rebuild s ps cur).1.length
      ∧ walkGet (rebuild s ps cur).1 (some (rebuild s ps cur).2) (ps.map Prod.fst)
          = some cur := by
  intro ps
  induction ps with
  | nil =>
    intro _
    exact ⟨⟨[], (List.append_nil s).symm⟩, hc, hcur, rfl⟩
  | cons e ps ih =>
    intro hps
    obtain ⟨c, p⟩ := e
    obtain ⟨⟨ext1, hext1⟩, hc1, hlt1, hwalk1⟩ :=
      ih (fun e he => hps e (List.mem_cons_of_mem _ he))
    have hpvalid : ValidRef s p := hps (c, p) (List.mem_cons_self _ _)
    have hlen1 : s.length ≤ (rebuild s ps cur).1.length := by
      rw [hext1]; simp
    simp only [rebuild, alloc, List.map_cons]
    set s1 := (rebuild s ps cur).1 with hs1
    set cur1 := (rebuild s ps cur).2 with hcur1
    set nd : TrieNode :=
      ⟨mapInsert (cloneBase s1 p).children_ c cur1, (cloneBase s1 p).value_⟩ with hnd
    have hndchild : ∀ e ∈ nd.children_, e.2 < s1.length := by
      intro e he
      rcases mem_mapInsert he with h1 | h1
      · cases p with
        | none => exact absurd h1 (List.not_mem_nil e)
        | some a =>
          have ha : a < s1.length := Nat.lt_of_lt_of_le (hpvalid a rfl) hlen1
          exact hc1 (readNode s1 a) (readNode_mem ha) e h1
      · subst h1
        exact hlt1
    refine ⟨⟨ext1 ++ [nd], ?_⟩, closedStore_concat hc1 hndchild, by simp, ?_⟩
    · rw [hext1, List.append_assoc]
    · simp only [walkGet, readNode_concat_self s1 nd]
      show (match mapFind nd.children_ c with
            | none => none
            | some child => walkGet (s1 ++ [nd]) (some child) (ps.map Prod.fst))
          = some cur
      rw [hnd]
      rw [mapFind_mapInsert_self]
      show walkGet (s1 ++ [nd]) (some cur1) (ps.map Prod.fst) = some cur
      rw [walkGet_append s1 [nd] _ (some cur1) hc1 (fun b hb => by cases hb; exact hlt1)]
      exact hwalk1

theorem putFinish_spec (s : Store) (ps : List (Char × Option Nat)) (tn : TrieNode)
    (hc : ClosedStore s) (htn : ∀ e ∈ tn.children_, e.2 < s.length)
    (hps : ∀ e ∈ ps, ValidRef s e.2) :
    (∃ ext, (putFinish s ps tn).1 = s ++ ext)
    ∧ ClosedStore (putFinish s ps tn).1
    ∧ (putFinish s ps tn).2 < (putFinish s ps tn).1.length
    ∧ ∀ ty0, Trie.Get ⟨(putFinish s ps tn).1, some (putFinish s ps tn).2⟩
        (ps.map Prod.fst) ty0 = valueAs tn ty0 := by
  have hc1 : ClosedStore (s ++ [tn]) := closedStore_concat hc htn
  have hterm : s.length < (s ++ [tn]).length := by simp
  have hps1 : ∀ e ∈ ps, ValidRef (s ++ [tn]) e.2 :=
    fun e he => validRef_mono (Nat.le_of_lt hterm) (hps e he)
  obtain ⟨⟨ext2, hext2⟩, hc2, hlt2, hwalk2⟩ :=
    rebuild_spec (s ++ [tn]) s.length hc1 hterm ps hps1
  set s2 := (rebuild (s ++ [tn]) ps s.length).1 with hs2
  set r2 := (rebuild (s ++ [tn]) ps s.length).2 with hr2
  have hlen2 : (s ++ [tn]).length ≤ s2.length := by rw [hext2]; simp
  have hterm2 : s.length < s2.length := Nat.lt_of_lt_of_le hterm hlen2
  have hterm_read : readNode s2 s.length = tn := by
    rw [hext2, readNode_append _ _ _ hterm, readNode_concat_self]
  have hndmem : readNode s2 r2 ∈ s2 := readNode_mem hlt2
  refine ⟨?_, ?_, ?_, ?_⟩
  · refine ⟨[tn] ++ ext2 ++ [readNode s2 r2], ?_⟩
    show s2 ++ [readNode s2 r2] = s ++ ([tn] ++ ext2 ++ [readNode s2 r2])
    rw [hext2]
    simp [List.append_assoc]
  · show ClosedStore (s2 ++ [readNode s2 r2])
    exact closedStore_concat hc2 (fun e he => hc2 (readNode s2 r2) hndmem e he)
  · show s2.length < (s2 ++ [readNode s2 r2]).length
    simp
  · intro ty0
    cases hkc : ps.map Prod.fst with
    | nil =>
      rw [hkc] at hwalk2
      have hr2s : r2 = s.length := Option.some.inj hwalk2
      show valueAs (readNode (s2 ++ [readNode s2 r2]) s2.length) ty0 = valueAs tn ty0
      rw [readNode_concat_self, hr2s, hterm_read]
    | cons c rest =>
      rw [hkc] at hwalk2
      simp only [walkGet] at hwalk2
      cases hfind : mapFind (readNode s2 r2).children_ c with
      | none =>
        rw [hfind] at hwalk2
        exact absurd hwalk2 (by simp)
      | some child =>
        rw [hfind] at hwalk2
        have hchild : child < s2.length :=
          hc2 (readNode s2 r2) hndmem (c, child) (mapFind_mem hfind)
        have hw : walkGet (s2 ++ [readNode s2 r2]) (some s2.length) (c :: rest)
            = some s.length := by
          simp only [walkGet, readNode_concat_self]
          rw [hfind]
          show walkGet (s2 ++ [readNode s2 r2]) (some child) rest = some s.length
          rw [walkGet_append s2 [readNode s2 r2] rest (some child) hc2
            (fun b hb => by cases hb; exact hchild)]
          exact hwalk2
        show (match walkGet (s2 ++ [readNode s2 r2]) (some s2.length) (c :: rest) with
              | none => none
              | some a => valueAs (readNode (s2 ++ [readNode s2 r2]) a) ty0)
            = valueAs tn ty0
        rw [hw]
        show valueAs (readNode (s2 ++ [readNode s2 r2]) s.length) ty0 = valueAs tn ty0
        rw [readNode_append s2 [readNode s2 r2] s.length hterm2, hterm_read]

theorem Put_master (s : Store) (root : Option Nat) (key : List Char) (ty v : Nat)
    (hc : ClosedStore s) (hv : ValidRef s root) :
    (∃ ext, (Trie.Put ⟨s, root⟩ key ty v).store_ = s ++ ext)
    ∧ (Trie.Put ⟨s, root⟩ key ty v).WF
    ∧ ∀ ty0, Trie.Get (Trie.Put ⟨s, root⟩ key ty v) key ty0
        = if ty = ty0 then some v else none := by
  have hwp := walkPut_valid s key root hc hv
  cases htm : (walkPut s root key).2 with
  | none =>
    have hput : Trie.Put ⟨s, root⟩ key ty v
        = ⟨(putFinish s (walkPut s root key).1 ⟨[], some (ty, v)⟩).1,
            some (putFinish s (walkPut s root key).1 ⟨[], some (ty, v)⟩).2⟩ := by
      simp only [Trie.Put]
      rw [htm]
    obtain ⟨hext, hclosed, hlt, hget⟩ :=
      putFinish_spec s (walkPut s root key).1 ⟨[], some (ty, v)⟩ hc
        (fun e he => absurd he (List.not_mem_nil e)) hwp.1
    rw [hput]
    refine ⟨hext, ⟨hclosed, ?_⟩, ?_⟩
    · intro b hb
      cases hb
      exact hlt
    · intro ty0
      have hget' := hget ty0
      rw [walkPut_fst s key root] at hget'
      rw [hget']
      rfl
    | some a =>
    have ha : a < s.length := hwp.2 a htm
    have hput : Trie.Put ⟨s, root⟩ key ty v
        = ⟨(putFinish s (walkPut s root key).1
              ⟨(readNode s a).children_, some (ty, v)⟩).1,
            some (putFinish s (walkPut s root key).1
              ⟨(readNode s a).children_, some (ty, v)⟩).2⟩ := by
      simp only [Trie.Put]
      rw [htm]
    obtain ⟨hext, hclosed, hlt, hget⟩ :=
      putFinish_spec s (walkPut s root key).1 ⟨(readNode s a).children_, some (ty, v)⟩ hc
        (fun e he => hc (readNode s a) (readNode_mem ha) e he) hwp.1
    rw [hput]
    refine ⟨hext, ⟨hclosed, ?_⟩, ?_⟩
    · intro b hb
      cases hb
      exact hlt
    · intro ty0
      have hget' := hget ty0
      rw [walkPut_fst s key root] at hget'
      rw [hget']
      rfl

theorem Trie.WF_empty : Trie.WF ⟨[], none⟩ :=
  ⟨fun n hn => absurd hn (List.not_mem_nil n), fun _b hb => nomatch hb⟩

/-- C2: for every well-formed trie `t`, key and value `v` with type tag `ty`,
`t.Put(key, v).Get<T>(key)` returns `v`, and `Get<U>` at the same key for any
different type tag `ty0` returns not-found (`none`), not an error. -/
theorem trie_put_get_roundtrip (t : Trie) (key : List Char) (ty v : Nat) (h : t.WF) :
    Trie.Get (Trie.Put t key ty v) key ty = some v
    ∧ ∀ ty0, ty0 ≠ ty → Trie.Get (Trie.Put t key ty v) key ty0 = none := by
  obtain ⟨s, root⟩ := t
  obtain ⟨hc, hv⟩ := h
  obtain ⟨-, -, hget⟩ := Put_master s root key ty v hc hv
  constructor
  · rw [hget ty]
    simp
  · intro ty0 hne
    rw [hget ty0]
    rw [if_neg (fun hh => hne hh.symm)]

/-- Witness for C2 at a concrete input: the empty trie, key "a", tag 0, value 7. -/
theorem trie_put_get_roundtrip_witness :
    Trie.WF ⟨[], none⟩
    ∧ Trie.Get (Trie.Put ⟨[], none⟩ ['a'] 0 7) ['a'] 0 = some 7
    ∧ Trie.Get (Trie.Put ⟨[], none⟩ ['a'] 0 7) ['a'] 1 = none := by
  have h := trie_put_get_roundtrip ⟨[], none⟩ ['a'] 0 7 Trie.WF_empty
  exact ⟨Trie.WF_empty, h.1, h.2 1 (by decide)⟩

/-- C4: `Put` never changes the original snapshot: every heap node that existed
before the `Put` is unchanged afterwards, and reading the original root through
the post-`Put` heap yields the same `Get` result for every key and type. -/
theorem trie_put_immutable (t : Trie) (key : List Char) (ty v : Nat)
    (key0 : List Char) (ty0 : Nat) (h : t.WF) :
    (∀ a, a < t.store_.length →
      readNode (Trie.Put t key ty v).store_ a = readNode t.store_ a)
    ∧ Trie.Get ⟨(Trie.Put t key ty v).store_, t.root_⟩ key0 ty0
        = Trie.Get t key0 ty0 := by
  obtain ⟨s, root⟩ := t
  obtain ⟨hc, hv⟩ := h
  obtain ⟨⟨ext, hext⟩, -, -⟩ := Put_master s root key ty v hc hv
  constructor
  · intro a ha
    show readNode (Trie.Put ⟨s, root⟩ key ty v).store_ a = readNode s a
    rw [hext]
    exact readNode_append s ext a ha
  · show Trie.Get ⟨(Trie.Put ⟨s, root⟩ key ty v).store_, root⟩ key0 ty0
        = Trie.Get ⟨s, root⟩ key0 ty0
    rw [hext]
    exact Trie.Get_append s ext root key0 ty0 hc hv

/-- Witness for C4 at a concrete input. -/
theorem trie_put_immutable_witness :
    Trie.WF ⟨[], none⟩
    ∧ Trie.Get ⟨(Trie.Put ⟨[], none⟩ ['a'] 0 7).store_, (⟨[], none⟩ : Trie).root_⟩ ['a'] 0
        = Trie.Get ⟨[], none⟩ ['a'] 0 :=
  ⟨Trie.WF_empty, (trie_put_immutable ⟨[], none⟩ ['a'] 0 7 ['a'] 0 Trie.WF_empty).2⟩

/-- C10: `Get` on a trie whose root reference is null returns not-found for
every key (including the empty key) and every requested type, with no failure:
the function is total and simply yields `none`. -/
theorem trie_get_null_root (s : Store) (key : List Char) (ty : Nat) :
    Trie.Get ⟨s, none⟩ key ty = none := by
  cases key <;> rfl

/-- C3 (code bug): `Put(k, v).Remove(k)` does not yield a trie observably equal
to the original; `Trie::Remove` unconditionally throws NotImplementedException. -/
theorem trie_put_remove_throws :
    Trie.Remove (Trie.Put ⟨[], none⟩ ['a'] 0 7) ['a']
      = Except.error "Trie::Remove is not implemented." := rfl

/-- C5 (code bug): `Get` returns plain not-found on a type mismatch and on a
missing key, but `Remove` of an absent key raises NotImplementedException
instead of returning a trie observably equal to the original. -/
theorem trie_error_handling :
    Trie.Get (Trie.Put ⟨[], none⟩ ['a'] 0 7) ['a'] 1 = none
    ∧ Trie.Get ⟨[], none⟩ ['b'] 0 = none
    ∧ Trie.Remove ⟨[], none⟩ ['a'] = Except.error "Trie::Remove is not implemented." :=
  ⟨by decide, rfl, rfl⟩

theorem storeFind_append_none {l : List (Nat × LRUKNode)} {fid : Nat}
    (h : storeFind l fid = none) (n : LRUKNode) :
    storeFind (l ++ [(fid, n)]) fid = some n := by
  induction l with
  | nil => simp [storeFind]
  | cons e rest ih =>
    obtain ⟨f, m⟩ := e
    simp only [storeFind, List.cons_append] at h ⊢
    by_cases hf : fid = f
    · rw [if_pos hf] at h
      exact absurd h (by simp)
    · rw [if_neg hf] at h ⊢
      exact ih h

theorem storeFind_none_of_not_mem {l : List (Nat × LRUKNode)} {fid : Nat}
    (h : fid ∉ l.map Prod.fst) : storeFind l fid = none := by
  induction l with
  | nil => rfl
  | cons e rest ih =>
    obtain ⟨f, m⟩ := e
    simp only [List.map_cons, List.mem_cons] at h
    push_neg at h
    unfold storeFind
    rw [if_neg h.1]
    exact ih h.2

theorem storeErase_find_none {l : List (Nat × LRUKNode)} {fid : Nat} {n : LRUKNode}
    (hfind : storeFind l fid = some n) (hnd : (l.map Prod.fst).Nodup) :
    storeFind (storeErase l fid) fid = none := by
  induction l with
  | nil => simp [storeFind] at hfind
  | cons e rest ih =>
    obtain ⟨f, m⟩ := e
    simp only [List.map_cons, List.nodup_cons] at hnd
    unfold storeFind at hfind
    unfold storeErase
    by_cases hf : f = fid
    · rw [if_pos hf]
      subst hf
      exact storeFind_none_of_not_mem hnd.1
    · rw [if_neg hf]
      rw [if_neg (fun hh => hf hh.symm)] at hfind
      unfold storeFind
      rw [if_neg (fun hh => hf hh.symm)]
      exact ih hfind hnd.2

theorem storeErase_size {l : List (Nat × LRUKNode)} {fid : Nat} {n : LRUKNode}
    (hfind : storeFind l fid = some n) (hev : n.is_evictable_ = true) :
    ((storeErase l fid).filter (fun e => e.2.is_evictable_)).length + 1
      = (l.filter (fun e => e.2.is_evictable_)).length := by
  induction l with
  | nil => simp [storeFind] at hfind
  | cons e rest ih =>
    obtain ⟨f, m⟩ := e
    unfold storeFind at hfind
    unfold storeErase
    by_cases hf : fid = f
    · rw [if_pos hf] at hfind
      have hm : m = n := Option.some.inj hfind
      subst hm
      rw [if_pos hf.symm]
      have hcons : List.filter (fun e : Nat × LRUKNode => e.2.is_evictable_) ((f, m) :: rest)
          = (f, m) :: rest.filter (fun e => e.2.is_evictable_) := by
        simp [List.filter_cons, hev]
      rw [hcons]
      rfl
    · rw [if_neg hf] at hfind
      rw [if_neg (fun hh => hf hh.symm)]
      have h2 := ih hfind
      cases hPm : m.is_evictable_ with
      | true =>
        have hcons : ∀ tl : List (Nat × LRUKNode),
            List.filter (fun e => e.2.is_evictable_) ((f, m) :: tl)
              = (f, m) :: tl.filter (fun e => e.2.is_evictable_) := by
          intro tl
          simp [List.filter_cons, hPm]
        rw [hcons, hcons]
        simp only [List.length_cons]
        omega
      | false =>
        have hcons : ∀ tl : List (Nat × LRUKNode),
            List.filter (fun e => e.2.is_evictable_) ((f, m) :: tl)
              = tl.filter (fun e => e.2.is_evictable_) := by
          intro tl
          simp [List.filter_cons, hPm]
        rw [hcons, hcons]
        exact h2

/-- C6: on the first sight of a frame id (untracked), `RecordAccess` creates a
record for it that is tracked, not evictable, and whose history holds exactly
one entry: the current logical timestamp of that call. -/
theorem record_access_first_sight (r : LRUKReplacer) (fid : Nat)
    (h : storeFind r.node_store_ fid = none) :
    storeFind (r.RecordAccess fid).node_store_ fid
      = some ⟨[r.current_timestamp_], r.k_, fid, false⟩ := by
  unfold LRUKReplacer.RecordAccess
  rw [h]
  exact storeFind_append_none h _

/-- Witness for C6: frame 3 first seen by a fresh replacer. -/
theorem record_access_first_sight_witness :
    storeFind (LRUKReplacer.init 7 2).node_store_ 3 = none
    ∧ storeFind ((LRUKReplacer.init 7 2).RecordAccess 3).node_store_ 3
        = some ⟨[0], 2, 3, false⟩ :=
  ⟨rfl, record_access_first_sight (LRUKReplacer.init 7 2) 3 rfl⟩

/-- C7: `Remove(fid)` is a no-op on an untracked frame; on a tracked evictable
frame it deletes the whole record (the frame becomes untracked and `Size`
drops by one); on a tracked non-evictable frame it reports the error
"Node is not evictable" and produces no new state. -/
theorem remove_contract (r : LRUKReplacer) (fid : Nat)
    (hnd : (r.node_store_.map Prod.fst).Nodup) :
    (storeFind r.node_store_ fid = none → r.Remove fid = .ok r)
    ∧ (∀ n, storeFind r.node_store_ fid = some n → n.is_evictable_ = true →
        r.Remove fid = .ok { r with node_store_ := storeErase r.node_store_ fid }
        ∧ storeFind (storeErase r.node_store_ fid) fid = none
        ∧ LRUKReplacer.Size { r with node_store_ := storeErase r.node_store_ fid } + 1
            = r.Size)
    ∧ (∀ n, storeFind r.node_store_ fid = some n → n.is_evictable_ = false →
        r.Remove fid = .error "Node is not evictable") := by
  refine ⟨?_, ?_, ?_⟩
  · intro h
    simp [LRUKReplacer.Remove, h]
  · intro n hfind hev
    refine ⟨?_, storeErase_find_none hfind hnd, ?_⟩
    · simp [LRUKReplacer.Remove, hfind, hev]
    · exact storeErase_size hfind hev
  · intro n hfind hev
    simp [LRUKReplacer.Remove, hfind, hev]

/-- Witness for C7: removing the tracked evictable frame 1 empties its record. -/
theorem remove_contract_witness :
    (lruRemWitState.node_store_.map Prod.fst).Nodup
    ∧ storeFind (storeErase lruRemWitState.node_store_ 1) 1 = none
    ∧ LRUKReplacer.Size { lruRemWitState with
        node_store_ := storeErase lruRemWitState.node_store_ 1 } + 1
          = lruRemWitState.Size := by
  have hnd : (lruRemWitState.node_store_.map Prod.fst).Nodup := by decide
  have h := (remove_contract lruRemWitState 1 hnd).2.1 ⟨[0], 2, 1, true⟩ (by decide) rfl
  exact ⟨hnd, h.2.1, h.2.2⟩

/-- C8 (code bug): operations called with a frame id outside
`[0, replacer_size_)` are silently tolerated rather than failing loudly: with
capacity 1, `RecordAccess 5` silently creates a record for frame 5, and
`SetEvictable 5` / `Remove 5` return silently leaving the state unchanged. -/
theorem out_of_range_frame_silently_tolerated :
    storeFind ((LRUKReplacer.init 1 2).RecordAccess 5).node_store_ 5
      = some ⟨[0], 2, 5, false⟩
    ∧ (LRUKReplacer.init 1 2).SetEvictable 5 true = LRUKReplacer.init 1 2
    ∧ (LRUKReplacer.init 1 2).Remove 5 = .ok (LRUKReplacer.init 1 2) :=
  ⟨rfl, rfl, rfl⟩

theorem mem_storeSetPush {l : List (Nat × LRUKNode)} {fid ts t : Nat}
    (h : t ∈ (storeSet (fun n => { n with history_ := n.history_ ++ [ts] }) l fid).flatMap
        (fun e => e.2.history_)) :
    t ∈ l.flatMap (fun e => e.2.history_) ∨ t = ts := by
  induction l with
  | nil => simp [storeSet] at h
  | cons e rest ih =>
    obtain ⟨f, n⟩ := e
    simp only [storeSet] at h
    by_cases hf : f = fid
    · rw [if_pos hf] at h
      rw [List.flatMap_cons] at h
      rcases List.mem_append.mp h with h1 | h1
      · rcases List.mem_append.mp h1 with h2 | h2
        · left
          rw [List.flatMap_cons]
          exact List.mem_append.mpr (Or.inl h2)
        · right
          simpa using h2
      · left
        rw [List.flatMap_cons]
        exact List.mem_append.mpr (Or.inr h1)
    · rw [if_neg hf] at h
      rw [List.flatMap_cons] at h
      rcases List.mem_append.mp h with h1 | h1
      · left
        rw [List.flatMap_cons]
        exact List.mem_append.mpr (Or.inl h1)
      · rcases ih h1 with h2 | h2
        · left
          rw [List.flatMap_cons]
          exact List.mem_append.mpr (Or.inr h2)
        · right
          exact h2

theorem ts_mem_storeSetPush {l : List (Nat × LRUKNode)} {fid : Nat} {n : LRUKNode}
    (ts : Nat) (hfind : storeFind l fid = some n) :
    ts ∈ (storeSet (fun m => { m with history_ := m.history_ ++ [ts] }) l fid).flatMap
        (fun e => e.2.history_) := by
  induction l with
  | nil => simp [storeFind] at hfind
  | cons e rest ih =>
    obtain ⟨f, m⟩ := e
    simp only [storeFind] at hfind
    simp only [storeSet]
    by_cases hf : fid = f
    · rw [if_pos hf.symm]
      simp [List.flatMap_cons]
    · rw [if_neg (fun hh : f = fid => hf hh.symm)]
      rw [if_neg hf] at hfind
      simp only [List.flatMap_cons, List.mem_append]
      right
      exact ih hfind

/-- C9 (spec-modelled clock): `RecordAccess` bumps the logical counter by one
on every call, and in every state satisfying the clock invariant the newly
recorded timestamp differs from all previously recorded timestamps and the
invariant is preserved — so over any sequence of `RecordAccess` calls the
recorded timestamps are pairwise distinct and strictly ordered by call
order. -/
theorem record_access_monotone_clock (r : LRUKReplacer) (fid : Nat)
    (h : TimestampsBounded r) :
    (r.RecordAccess fid).current_timestamp_ = r.current_timestamp_ + 1
    ∧ r.current_timestamp_ ∉ allTimestamps r
    ∧ r.current_timestamp_ ∈ allTimestamps (r.RecordAccess fid)
    ∧ TimestampsBounded (r.RecordAccess fid) := by
  have hfresh : r.current_timestamp_ ∉ allTimestamps r := by
    intro hmem
    exact absurd (h _ hmem) (Nat.lt_irrefl _)
  cases hfind : storeFind r.node_store_ fid with
  | some n =>
    have hra : r.RecordAccess fid
        = { r with
            node_store_ :=
              storeSet (fun m => { m with history_ := m.history_ ++ [r.current_timestamp_] })
                r.node_store_ fid,
            current_timestamp_ := r.current_timestamp_ + 1 } := by
      simp [LRUKReplacer.RecordAccess, hfind]
    refine ⟨by rw [hra], hfresh, ?_, ?_⟩
    · rw [hra]
      exact ts_mem_storeSetPush r.current_timestamp_ hfind
    · intro t ht
      rw [hra] at ht
      rcases mem_storeSetPush ht with h1 | h1
      · have := h t h1
        rw [hra]
        exact Nat.lt_succ_of_lt this
      · rw [hra, h1]
        exact Nat.lt_succ_self _
  | none =>
    have hra : r.RecordAccess fid
        = { r with
            node_store_ :=
              r.node_store_ ++ [(fid, ⟨[r.current_timestamp_], r.k_, fid, false⟩)],
            current_timestamp_ := r.current_timestamp_ + 1 } := by
      simp [LRUKReplacer.RecordAccess, hfind]
    refine ⟨by rw [hra], hfresh, ?_, ?_⟩
    · rw [hra]
      show r.current_timestamp_ ∈
        (r.node_store_
          ++ [(fid, (⟨[r.current_timestamp_], r.k_, fid, false⟩ : LRUKNode))]).flatMap
          (fun e => e.2.history_)
      rw [List.flatMap_append]
      simp
    · intro t ht
      rw [hra] at ht
      have ht' : t ∈ allTimestamps r ∨ t = r.current_timestamp_ := by
        have : t ∈
            (r.node_store_
              ++ [(fid, (⟨[r.current_timestamp_], r.k_, fid, false⟩ : LRUKNode))]).flatMap
              (fun e => e.2.history_) := ht
        rw [List.flatMap_append] at this
        rcases List.mem_append.mp this with h1 | h1
        · left; exact h1
        · right; simpa using h1
      rw [hra]
      rcases ht' with h1 | h1
      · exact Nat.lt_succ_of_lt (h t h1)
      · rw [h1]
        exact Nat.lt_succ_self _

/-- Witness for C9: a replacer that has seen one access satisfies the clock
invariant, and the next call bumps the counter. -/
theorem record_access_monotone_clock_witness :
    TimestampsBounded ((LRUKReplacer.init 7 2).RecordAccess 0)
    ∧ (((LRUKReplacer.init 7 2).RecordAccess 0).RecordAccess 0).current_timestamp_
        = ((LRUKReplacer.init 7 2).RecordAccess 0).current_timestamp_ + 1 := by
  have hb : TimestampsBounded ((LRUKReplacer.init 7 2).RecordAccess 0) := by
    unfold TimestampsBounded
    decide
  exact ⟨hb, (record_access_monotone_clock ((LRUKReplacer.init 7 2).RecordAccess 0) 0 hb).1⟩

/-- C1 (code bug): in the spec's k=2 scenario `Evict` does return frame 1; but
the general rule is violated: among evictable frames with fewer than k
recorded accesses the code compares `history_.back()` (the most recent
timestamp) instead of the oldest one.  In `lruFailK3` both frames are
evictable with +infinity distance, frame 1 has the smaller oldest timestamp
(0 < 1), yet `Evict` returns frame 2. -/
theorem evict_scenario_and_infinite_tiebreak_bug :
    Except.map Prod.fst lruScenarioK2.Evict = .ok (some 1)
    ∧ Except.map Prod.fst lruFailK3.Evict = .ok (some 2)
    ∧ (storeFind lruFailK3.node_store_ 1).map
        (fun n => (n.history_.headD 999, decide (n.history_.length < lruFailK3.k_),
          n.is_evictable_)) = some (0, true, true)
    ∧ (storeFind lruFailK3.node_store_ 2).map
        (fun n => (n.history_.headD 999, decide (n.history_.length < lruFailK3.k_),
          n.is_evictable_)) = some (1, true, true) :=
  ⟨rfl, rfl, rfl, rfl⟩

example : Trie.Get (Trie.Put ⟨[], none⟩ ['a'] 0 7) ['a'] 0 = some 7 := by decide

example : Trie.Get (Trie.Put ⟨[], none⟩ ['a', 'b'] 0 7) ['a', 'b'] 0 = some 7 := by decide

example : Trie.Get (Trie.Put ⟨[], none⟩ ['a', 'b'] 0 7) ['a'] 0 = none := by decide

example : Trie.Get (Trie.Put (Trie.Put ⟨[], none⟩ ['a', 'b'] 0 7) ['a'] 1 9) ['a', 'b'] 0 = some 7 := by decide

example : Trie.Get (Trie.Put ⟨[], none⟩ [] 3 7) [] 3 = some 7 := by decide

example : Trie.Get (Trie.Put ⟨[], none⟩ ['a'] 0 7) ['a'] 1 = none := by decide
